import Mathlib

/-!
Verification of the persistent store subsystem of the Academic Dashboard
repository: the collection store (use-store), the durable key-value hook
(use-local-storage), the debounced write scheduler, and the bridged file
backend (electron/main.ts readJSON/writeJSON with JSON serialization).

Conventions of the embedding:
- JavaScript objects holding entity records are modelled by `EntityRec`
  (the shared `id`/`createdAt`/optional `updatedAt` shape plus an
  association list for the remaining fields).
- A field access on a JavaScript object that may be `undefined` at run
  time is modelled with `Option`; an operation that would throw a
  `TypeError` (spreading or mapping over `undefined`) returns `none`.
- Each call of `new Date().toISOString()` inside one synchronous store
  operation is modelled by one `now : String` parameter for the whole
  operation (the clock is treated as constant within a synchronous turn;
  sub-millisecond clock advancement is a real-time concern outside the
  model).
- `uuidv4()` is modelled by a `freshId : String` parameter; freshness is
  a hypothesis where uniqueness is claimed.
- JSON numbers are modelled as integers (`Int`); IEEE-754 floating point
  is outside the model.
-/

set_option maxRecDepth 4096

namespace AcademicDashboard

/-! ## Entity records and shallow merge (lib/types + use-store) -/

/-- Entity record: the generic shape shared by all collections. `updatedAt`
is present only for collections that track modification time (papers);
all remaining fields of the record are kept in an association list. -/
structure EntityRec where
  id : String
  createdAt : String
  updatedAt : Option String
  fields : List (String × String)
deriving DecidableEq, Repr

/-- Partial record (the `Partial<T>` argument of `updateItem`): each
component is optionally supplied; `fields` lists supplied plain fields in
order (later entries win on key collision, as in a JS object spread). -/
structure RecPatch where
  id : Option String
  createdAt : Option String
  updatedAt : Option String
  fields : List (String × String)
deriving DecidableEq, Repr

/-- Setting one key of a JS object: replace in place if the key exists,
otherwise append (JS object key order semantics). -/
def setField : List (String × String) → String → String → List (String × String)
  | [], k, v => [(k, v)]
  | (k0, v0) :: rest, k, v =>
      if k0 = k then (k, v) :: rest else (k0, v0) :: setField rest k v

/-- The effect of a JS object spread on the plain fields:
all keys of `upd` are written over `base`, in order. -/
def mergeFields (base upd : List (String × String)) : List (String × String) :=
  upd.foldl (fun acc kv => setField acc kv.1 kv.2) base

/-- Field lookup on a JS object. -/
def lookupField (fs : List (String × String)) (k : String) : Option String :=
  (fs.find? (fun kv => kv.1 = k)).map (fun kv => kv.2)

/-- The value the spread assigns to key `k`: the last occurrence of `k`
in the update list, if any. -/
def lastLookup (upd : List (String × String)) (k : String) : Option String :=
  (upd.reverse.find? (fun kv => kv.1 = k)).map (fun kv => kv.2)

/-- The shallow merge performed by `updateItem`:
the JS expression is a spread of `item` then `updates`, so every
component supplied by the patch wins, and unsupplied components keep the
value from `item`. -/
def mergeRec (r : EntityRec) (p : RecPatch) : EntityRec where
  id := p.id.getD r.id
  createdAt := p.createdAt.getD r.createdAt
  updatedAt := match p.updatedAt with
    | some u => some u
    | none => r.updatedAt
  fields := mergeFields r.fields p.fields

/-! ## DashboardData and the generic CRUD helpers (use-store) -/

/-- The ten collection names of `DashboardData`. -/
inductive Collection where
  | papers | courses | grants | peerReviews | editorialRoles
  | students | conferences | serviceRoles | linkedFolders | todos
deriving DecidableEq, Repr

/-- The run-time shape of the stored document. `linkedFolders` and
`todos` were added to the schema later, so a document loaded from older
storage may lack them; those two fields are therefore `Option` (the
`?? []` fallbacks in the source acknowledge exactly these two). -/
structure DashboardData where
  papers : List EntityRec
  courses : List EntityRec
  grants : List EntityRec
  peerReviews : List EntityRec
  editorialRoles : List EntityRec
  students : List EntityRec
  conferences : List EntityRec
  serviceRoles : List EntityRec
  linkedFolders : Option (List EntityRec)
  todos : Option (List EntityRec)
deriving DecidableEq, Repr

/-- DEFAULT_DATA: every collection empty (and present). -/
def DEFAULT_DATA : DashboardData :=
  ⟨[], [], [], [], [], [], [], [], some [], some []⟩

/-- Reading `prev[collection]`; `none` models a run-time `undefined`. -/
def getCol (d : DashboardData) : Collection → Option (List EntityRec)
  | .papers => some d.papers
  | .courses => some d.courses
  | .grants => some d.grants
  | .peerReviews => some d.peerReviews
  | .editorialRoles => some d.editorialRoles
  | .students => some d.students
  | .conferences => some d.conferences
  | .serviceRoles => some d.serviceRoles
  | .linkedFolders => d.linkedFolders
  | .todos => d.todos

/-- The spread `{ ...prev, [collection]: l }`: the named key is written
(so an optional collection becomes present). -/
def setCol (d : DashboardData) : Collection → List EntityRec → DashboardData
  | .papers, l => { d with papers := l }
  | .courses, l => { d with courses := l }
  | .grants, l => { d with grants := l }
  | .peerReviews, l => { d with peerReviews := l }
  | .editorialRoles, l => { d with editorialRoles := l }
  | .students, l => { d with students := l }
  | .conferences, l => { d with conferences := l }
  | .serviceRoles, l => { d with serviceRoles := l }
  | .linkedFolders, l => { d with linkedFolders := some l }
  | .todos, l => { d with todos := some l }

/-- safeData from use-store: widens only the two late-added collections
with an empty array when absent. -/
def safeData (d : DashboardData) : DashboardData :=
  { d with
    linkedFolders := some (d.linkedFolders.getD [])
    todos := some (d.todos.getD []) }

/-- The argument of `addItem` (the caller cannot supply `id` or
`createdAt`; papers supply `updatedAt`). -/
structure AddInput where
  updatedAt : Option String
  fields : List (String × String)
deriving DecidableEq, Repr

/-- The record constructed by `addItem`: the given fields spread first,
then the fresh id and the `createdAt` clock reading (which therefore
win over anything the input could carry). -/
def newRecord (freshId now : String) (item : AddInput) : EntityRec where
  id := freshId
  createdAt := now
  updatedAt := item.updatedAt
  fields := item.fields

/-- addItem from use-store. The updater spreads `prev[collection]`
(the raw stored document, not `safeData`), so when that collection is
absent at run time the spread throws a TypeError: modelled by `none`.
Otherwise the new record (input fields plus fresh `id` and `createdAt`)
is appended and the document is replaced through one `setData` call. -/
def addItem (c : Collection) (freshId now : String) (item : AddInput)
    (prev : DashboardData) : Option DashboardData :=
  match getCol prev c with
  | none => none
  | some l => some (setCol prev c (l ++ [newRecord freshId now item]))

/-- updateItem from use-store: map over `prev[collection]`, shallow-merge
the patch into the record whose `id` matches, keep every other record.
A run-time-absent collection makes `.map` throw: modelled by `none`. -/
def updateItem (c : Collection) (id : String) (updates : RecPatch)
    (prev : DashboardData) : Option DashboardData :=
  match getCol prev c with
  | none => none
  | some l =>
      some (setCol prev c
        (l.map fun r => if r.id = id then mergeRec r updates else r))

/-- deleteItem from use-store: filter out the record whose `id` matches. -/
def deleteItem (c : Collection) (id : String) (prev : DashboardData) :
    Option DashboardData :=
  match getCol prev c with
  | none => none
  | some l => some (setCol prev c (l.filter fun r => r.id != id))

/-- papers.add: wraps `addItem` after extending the input with
`updatedAt` sampled from the clock. -/
def papersAdd (freshId now : String) (paper : List (String × String))
    (prev : DashboardData) : Option DashboardData :=
  addItem .papers freshId now { updatedAt := some now, fields := paper } prev

/-- papers.update: wraps `updateItem` with `updatedAt` forced to the
clock reading (the spread puts it after the caller patch, so it wins). -/
def papersUpdate (id now : String) (updates : RecPatch)
    (prev : DashboardData) : Option DashboardData :=
  updateItem .papers id { updates with updatedAt := some now } prev

/-- papers.delete: wraps `deleteItem`. -/
def papersDelete (id : String) (prev : DashboardData) : Option DashboardData :=
  deleteItem .papers id prev

/-! ## Durable key-value store lifecycle (use-local-storage) -/

/-- The in-memory state of one `useLocalStorage` instance. -/
structure StoreState (T : Type) where
  storedValue : T
  isHydrated : Bool
deriving DecidableEq, Repr

/-- State at mount: the supplied default, not hydrated. -/
def initialStoreState {T : Type} (dflt : T) : StoreState T := ⟨dflt, false⟩

/-- Outcome of the backend read performed by the load effect:
a value, an explicit null/undefined (first run), or a thrown error. -/
inductive ReadOutcome (T : Type) where
  | success (v : T)
  | absent
  | failure (msg : String)
deriving DecidableEq, Repr

/-- The load effect: a present result replaces the value; an absent
result or a caught error keeps the current value (the error is only
logged); in every branch `setIsHydrated true` runs afterwards. The
function is total: no branch rethrows to the caller. -/
def applyLoad {T : Type} (s : StoreState T) : ReadOutcome T → StoreState T
  | .success v => ⟨v, true⟩
  | .absent => ⟨s.storedValue, true⟩
  | .failure _ => ⟨s.storedValue, true⟩

/-- setValue: updates the in-memory value from the previous one and
leaves the hydration flag untouched (nothing in the hook ever writes
`false` to it again). -/
def applySet {T : Type} (s : StoreState T) (f : T → T) : StoreState T :=
  ⟨f s.storedValue, s.isHydrated⟩

/-- The events that can touch the state of one store instance. -/
inductive StoreEvt (T : Type) where
  | load (r : ReadOutcome T)
  | set (f : T → T)

/-- One state transition of the store instance. -/
def storeStep {T : Type} (s : StoreState T) : StoreEvt T → StoreState T
  | .load r => applyLoad s r
  | .set f => applySet s f

/-! ## Debounced write scheduler (persist, Electron branch) -/

/-- The debounce delay armed by persist (milliseconds). -/
def debounceDelay : Nat := 100

/-- Scheduler state: the pending timer, holding the captured document and
the absolute deadline at which it would fire. -/
def SchedState (T : Type) : Type := Option (T × Nat)

/-- One persist call at absolute time `call.2` with document `call.1`:
if an armed timer has already expired by then, it has fired and emitted
its write before this call runs (single-threaded event loop); then
`clearTimeout` discards any remaining timer and `setTimeout` arms a new
one for `debounceDelay` from now with the newest document. -/
def schedStep {T : Type} (st : SchedState T) (call : T × Nat) :
    SchedState T × List T :=
  match st with
  | some (d, deadline) =>
      if deadline ≤ call.2 then (some (call.1, call.2 + debounceDelay), [d])
      else (some (call.1, call.2 + debounceDelay), [])
  | none => (some (call.1, call.2 + debounceDelay), [])

/-- Run a sequence of persist calls (time-stamped, in order), collecting
the physical backend writes they cause. -/
def schedRun {T : Type} (st : SchedState T) :
    List (T × Nat) → SchedState T × List T
  | [] => (st, [])
  | c :: cs =>
      let p := schedStep st c
      let q := schedRun p.1 cs
      (q.1, p.2 ++ q.2)

/-- After the call sequence goes quiet, the armed timer (if any) fires
and performs its one write. -/
def schedFlush {T : Type} : SchedState T → List T
  | some (d, _) => [d]
  | none => []

/-- Burst condition: time flows forward and each consecutive pair of
calls is separated by strictly less than the debounce delay. -/
def burstOk {T : Type} : List (T × Nat) → Bool
  | a :: b :: rest =>
      (decide (a.2 ≤ b.2) && decide (b.2 < a.2 + debounceDelay))
        && burstOk (b :: rest)
  | _ => true

/-! ## Failure handling of the physical write (persist) -/

/-- Result of one physical backend write. -/
inductive WriteResult where
  | ok
  | failed (msg : String)
deriving DecidableEq, Repr

/-- Settlement of the scheduled file-backend write: the timer callback
calls `storage.write` and ignores the returned promise — there is no
catch handler, so nothing is logged, nothing reaches the caller, and the
in-memory state is untouched whatever the result. -/
def electronWriteSettled {T : Type} (s : StoreState T) (_res : WriteResult) :
    StoreState T × List String :=
  (s, [])

/-- The console.warn message of the browser branch. -/
def browserWriteWarn (key msg : String) : String :=
  "Error setting localStorage key " ++ key ++ ": " ++ msg

/-- Settlement of the synchronous browser write: `setItem` runs inside
try/catch; a failure is logged with console.warn and swallowed, the
in-memory state is untouched. -/
def browserWriteSettled {T : Type} (key : String) (s : StoreState T) :
    WriteResult → StoreState T × List String
  | .ok => (s, [])
  | .failed msg => (s, [browserWriteWarn key msg])

/-! ## Bridged file backend (electron/main.ts) -/

/-- The committed file system: an association list from path to full file
content (later entries shadow earlier ones). -/
def FS : Type := List (String × String)

/-- Read a committed file. -/
def fsGet (fs : FS) (p : String) : Option String :=
  (fs.find? (fun e => e.1 = p)).map (fun e => e.2)

/-- Write (create or replace) a file in one step. -/
def fsSet (fs : FS) (p c : String) : FS := (p, c) :: fs

/-- Remove a path. -/
def fsRemove (fs : FS) (p : String) : FS := fs.filter (fun e => e.1 != p)

/-- POSIX rename: the destination takes the content of the source
atomically and the source disappears. -/
def fsRename (fs : FS) (src dst : String) : FS :=
  match fsGet fs src with
  | some c => fsSet (fsRemove fs src) dst c
  | none => fs

/-- The temporary staging path of writeJSON:
the destination path suffixed with ".tmp." and the process id. -/
def tempPath (filePath : String) (pid : Nat) : String :=
  filePath ++ ".tmp." ++ toString pid

/-- getStoragePath: "settings" maps to the settings file, any other key
to the data file, inside the user-data directory. -/
def getStoragePath (userData key : String) : String :=
  userData ++ "/" ++ (if key = "settings" then "settings.json" else "data.json")

/-- writeJSON with the serialized payload already computed: stage the
payload at the temporary path, then rename it into place. -/
def writeJSONRaw (fs : FS) (filePath : String) (pid : Nat) (payload : String) : FS :=
  fsRename (fsSet fs (tempPath filePath pid) payload) (tempPath filePath pid) filePath

/-- A document saved by an older version of the application, before the
`linkedFolders` and `todos` collections existed. -/
def legacyDoc : DashboardData :=
  ⟨[], [], [], [], [], [], [], [], none, none⟩

/-- Sample record used by concrete witnesses. -/
def sampleTodo : EntityRec where
  id := "t1"
  createdAt := "T0"
  updatedAt := none
  fields := [("text", "a")]

/-- Sample paper record used by concrete witnesses. -/
def samplePaper : EntityRec where
  id := "uuid-1"
  createdAt := "T0"
  updatedAt := some "T0"
  fields := [("title", "X")]

/-- Sample document with one todo, used by concrete witnesses. -/
def docWithTodo : DashboardData := { DEFAULT_DATA with todos := some [sampleTodo] }

/-- Sample document with one paper, used by concrete witnesses. -/
def docWithPaper : DashboardData := { DEFAULT_DATA with papers := [samplePaper] }

/-! ## JSON values and serialization (JSON.stringify(data, null, 2)) -/

/-- JSON values: the serializable documents. Numbers are modelled as
integers (JavaScript numbers are IEEE-754 doubles; fractional values
are outside the model, and JS prints integral doubles of this range in
plain decimal). Objects are ordered key/value lists, as JS objects
preserve insertion order. -/
inductive Json where
  | null
  | bool (b : Bool)
  | num (n : Int)
  | str (s : String)
  | arr (items : List Json)
  | obj (entries : List (String × Json))

/-- Decimal digit to character. -/
def digitChar : Nat → Char
  | 0 => '0' | 1 => '1' | 2 => '2' | 3 => '3' | 4 => '4'
  | 5 => '5' | 6 => '6' | 7 => '7' | 8 => '8' | 9 => '9'
  | _ => '*'

/-- Decimal representation of a natural number, most significant digit
first. -/
def natChars (m : Nat) : List Char :=
  if h : m < 10 then [digitChar m]
  else natChars (m / 10) ++ [digitChar (m % 10)]
decreasing_by exact Nat.div_lt_self (by omega) (by omega)

/-- Decimal representation of an integer, as printed by JS. -/
def intChars (n : Int) : List Char :=
  if n < 0 then '-' :: natChars n.natAbs else natChars n.natAbs

/-- Hexadecimal digit to character (lowercase, as emitted by
JSON.stringify control-character escapes). -/
def hexChar : Nat → Char
  | 0 => '0' | 1 => '1' | 2 => '2' | 3 => '3' | 4 => '4'
  | 5 => '5' | 6 => '6' | 7 => '7' | 8 => '8' | 9 => '9'
  | 10 => 'a' | 11 => 'b' | 12 => 'c' | 13 => 'd' | 14 => 'e'
  | 15 => 'f'
  | _ => '*'

/-- The escape JSON.stringify applies to one character of a string
literal: quote and backslash get a backslash escape, the named control
characters get their short forms, any other control character below
0x20 gets a \u00XX escape, and everything else is emitted literally. -/
def escChar (c : Char) : List Char :=
  if c = '"' then ['\\', '"']
  else if c = '\\' then ['\\', '\\']
  else if c = '\x08' then ['\\', 'b']
  else if c = '\t' then ['\\', 't']
  else if c = '\n' then ['\\', 'n']
  else if c = '\x0c' then ['\\', 'f']
  else if c = '\r' then ['\\', 'r']
  else if c.toNat < 32 then
    ['\\', 'u', '0', '0', hexChar (c.toNat / 16), hexChar (c.toNat % 16)]
  else [c]

/-- Escape a character sequence. -/
def escList : List Char → List Char
  | [] => []
  | c :: cs => escChar c ++ escList cs

/-- The indentation emitted at nesting depth d for indent width 2. -/
def indentChars (d : Nat) : List Char := List.replicate (2 * d) ' '

mutual

/-- Serialization of one JSON value at nesting depth d, following the
output format of JSON.stringify(value, null, 2): empty containers print
as two brackets, nonempty containers print one indented line per
element with a ",\n" separator, and object entries print as quoted key,
colon, space, value. -/
def serVal (d : Nat) : Json → List Char
  | .null => ['n', 'u', 'l', 'l']
  | .bool b => if b then ['t', 'r', 'u', 'e'] else ['f', 'a', 'l', 's', 'e']
  | .num n => intChars n
  | .str s => '"' :: (escList s.data ++ ['"'])
  | .arr [] => ['[', ']']
  | .arr (x :: xs) =>
      '[' :: '\n' :: (serItems d (x :: xs) ++ '\n' :: (indentChars d ++ [']']))
  | .obj [] => ['{', '}']
  | .obj (e :: es) =>
      '{' :: '\n' :: (serEntries d (e :: es) ++ '\n' :: (indentChars d ++ ['}']))

/-- Serialization of the items of a nonempty array at depth d. -/
def serItems (d : Nat) : List Json → List Char
  | [] => []
  | [x] => indentChars (d + 1) ++ serVal (d + 1) x
  | x :: xs =>
      indentChars (d + 1) ++
        (serVal (d + 1) x ++ ',' :: '\n' :: serItems d xs)

/-- Serialization of the entries of a nonempty object at depth d. -/
def serEntries (d : Nat) : List (String × Json) → List Char
  | [] => []
  | [(k, v)] =>
      indentChars (d + 1) ++
        ('"' :: (escList k.data ++ '"' :: ':' :: ' ' :: serVal (d + 1) v))
  | (k, v) :: es =>
      indentChars (d + 1) ++
        ('"' :: (escList k.data ++ '"' :: ':' :: ' ' :: serVal (d + 1) v ++
          ',' :: '\n' :: serEntries d es))

end

/-- JSON.stringify(value, null, 2). -/
def jsonStringify (v : Json) : String := String.mk (serVal 0 v)

/-! ## JSON parsing (JSON.parse) -/

/-- JSON insignificant whitespace. -/
def isWsChar (c : Char) : Bool := c = ' ' || c = '\n' || c = '\t' || c = '\r'

/-- Drop leading whitespace. -/
def skipWs : List Char → List Char
  | [] => []
  | c :: cs => if isWsChar c then skipWs cs else c :: cs

/-- A whitespace-only character sequence. -/
def wsOnly (l : List Char) : Bool := l.all isWsChar

/-- Shape of the continuation that follows one serialized value inside
a serialized document: nothing (top level) or a separator comma or the
newline that precedes the closing bracket line. -/
def followOkB : List Char → Bool
  | [] => true
  | c :: _ => c = ',' || c = '\n'

/-- Character to decimal digit value. -/
def charDigit (c : Char) : Nat := c.toNat - 48

/-- Consume a maximal run of decimal digits, accumulating the value. -/
def parseDigitsAux (acc : Nat) : List Char → Nat × List Char
  | [] => (acc, [])
  | c :: cs =>
      if c.isDigit then parseDigitsAux (acc * 10 + charDigit c) cs
      else (acc, c :: cs)

/-- Consume one or more decimal digits. -/
def parseDigits : List Char → Option (Nat × List Char)
  | [] => none
  | c :: cs => if c.isDigit then some (parseDigitsAux (charDigit c) cs) else none

/-- A continuation that would extend the literal to a fraction or an
exponent: such numbers are IEEE-754 doubles, outside the model, so the
model parser rejects them rather than misread them. -/
def numTail : List Char → Bool
  | c :: _ => c = '.' || c = 'e' || c = 'E'
  | [] => false

/-- Parse an integer literal (optional minus sign, then digits). -/
def parseNum (input : List Char) : Option (Int × List Char) :=
  match input with
  | [] => none
  | c :: cs =>
      if c = '-' then
        match parseDigits cs with
        | some (m, r) => if numTail r then none else some (-(m : Int), r)
        | none => none
      else
        match parseDigits (c :: cs) with
        | some (m, r) => if numTail r then none else some ((m : Int), r)
        | none => none

/-- Hexadecimal digit value of a character. -/
def hexVal (c : Char) : Option Nat :=
  if c.isDigit then some (charDigit c)
  else if 97 ≤ c.toNat && c.toNat ≤ 102 then some (c.toNat - 87)
  else if 65 ≤ c.toNat && c.toNat ≤ 70 then some (c.toNat - 55)
  else none

/-- Prepend a decoded character to the result of parsing the remainder
of a string literal. -/
def consFirst (c : Char) : Option (List Char × List Char) → Option (List Char × List Char)
  | some (s, r) => some (c :: s, r)
  | none => none

/-- Read four hexadecimal digits. -/
def hex4 : List Char → Option (Nat × List Char)
  | h1 :: h2 :: h3 :: h4 :: cs =>
      match hexVal h1, hexVal h2, hexVal h3, hexVal h4 with
      | some a, some b, some c, some d =>
          some (((a * 16 + b) * 16 + c) * 16 + d, cs)
      | _, _, _, _ => none
  | _ => none

/-- Parse the body of a string literal after the opening quote, decoding
escapes, up to and including the closing quote. Raw control characters
are rejected, as JSON.parse rejects them. A \uXXXX escape outside the
scalar range is rejected (Lean characters are Unicode scalar values;
lone surrogate halves are outside the model). The fuel argument only
bounds the recursion; one unit per decoded character suffices. -/
def parseStrAux : Nat → List Char → Option (List Char × List Char)
  | 0, _ => none
  | fu + 1, input =>
      match input with
      | [] => none
      | c :: cs =>
          if c = '"' then some ([], cs)
          else if c = '\\' then
            match cs with
            | [] => none
            | e :: cs2 =>
                if e = '"' then consFirst '"' (parseStrAux fu cs2)
                else if e = '\\' then consFirst '\\' (parseStrAux fu cs2)
                else if e = '/' then consFirst '/' (parseStrAux fu cs2)
                else if e = 'b' then consFirst '\x08' (parseStrAux fu cs2)
                else if e = 'f' then consFirst '\x0c' (parseStrAux fu cs2)
                else if e = 'n' then consFirst '\n' (parseStrAux fu cs2)
                else if e = 'r' then consFirst '\r' (parseStrAux fu cs2)
                else if e = 't' then consFirst '\t' (parseStrAux fu cs2)
                else if e = 'u' then
                  match hex4 cs2 with
                  | some (n, cs3) =>
                      if n.isValidChar then
                        consFirst (Char.ofNat n) (parseStrAux fu cs3)
                      else none
                  | none => none
                else none
          else if c.toNat < 32 then none
          else consFirst c (parseStrAux fu cs)

/-- Parse a string literal body with enough fuel for its own length. -/
def parseStr (cs : List Char) : Option (List Char × List Char) :=
  parseStrAux (cs.length + 1) cs

mutual

/-- Parse one JSON value, with fuel bounding the nesting recursion. -/
def parseVal : Nat → List Char → Option (Json × List Char)
  | 0, _ => none
  | f + 1, input =>
      match skipWs input with
      | [] => none
      | c :: cs =>
          if c = 'n' then
            match cs with
            | 'u' :: 'l' :: 'l' :: rest => some (.null, rest)
            | _ => none
          else if c = 't' then
            match cs with
            | 'r' :: 'u' :: 'e' :: rest => some (.bool true, rest)
            | _ => none
          else if c = 'f' then
            match cs with
            | 'a' :: 'l' :: 's' :: 'e' :: rest => some (.bool false, rest)
            | _ => none
          else if c = '"' then
            match parseStr cs with
            | some (s, rest) => some (.str (String.mk s), rest)
            | none => none
          else if c = '[' then
            match skipWs cs with
            | [] => none
            | c2 :: r2 =>
                if c2 = ']' then some (.arr [], r2)
                else
                  match parseItems f cs with
                  | some (l, rest) => some (.arr l, rest)
                  | none => none
          else if c = '{' then
            match skipWs cs with
            | [] => none
            | c2 :: r2 =>
                if c2 = '}' then some (.obj [], r2)
                else
                  match parseEntries f cs with
                  | some (es, rest) => some (.obj es, rest)
                  | none => none
          else if c = '-' || c.isDigit then
            match parseNum (c :: cs) with
            | some (n, rest) => some (.num n, rest)
            | none => none
          else none

/-- Parse the items of a nonempty array, consuming the closing
bracket. -/
def parseItems : Nat → List Char → Option (List Json × List Char)
  | 0, _ => none
  | f + 1, input =>
      match parseVal f input with
      | none => none
      | some (v, r) =>
          match skipWs r with
          | ',' :: r2 =>
              match parseItems f r2 with
              | none => none
              | some (l, r3) => some (v :: l, r3)
          | ']' :: r2 => some ([v], r2)
          | _ => none

/-- Parse the entries of a nonempty object, consuming the closing
brace. -/
def parseEntries : Nat → List Char → Option (List (String × Json) × List Char)
  | 0, _ => none
  | f + 1, input =>
      match skipWs input with
      | '"' :: rest =>
          match parseStr rest with
          | none => none
          | some (k, r1) =>
              match skipWs r1 with
              | ':' :: r2 =>
                  match parseVal f r2 with
                  | none => none
                  | some (v, r3) =>
                      match skipWs r3 with
                      | ',' :: r4 =>
                          match parseEntries f r4 with
                          | none => none
                          | some (es, r5) => some ((String.mk k, v) :: es, r5)
                      | '}' :: r4 => some ([(String.mk k, v)], r4)
                      | _ => none
              | _ => none
      | _ => none

end

mutual

/-- Fuel sufficient to parse a serialized value: one unit per parser
recursion level. -/
def needV : Json → Nat
  | .null => 1
  | .bool _ => 1
  | .num _ => 1
  | .str _ => 1
  | .arr [] => 1
  | .arr (x :: xs) => 1 + needI (x :: xs)
  | .obj [] => 1
  | .obj (e :: es) => 1 + needE (e :: es)

def needI : List Json → Nat
  | [] => 0
  | x :: xs => 1 + max (needV x) (needI xs)

def needE : List (String × Json) → Nat
  | [] => 0
  | (_, v) :: es => 1 + max (needV v) (needE es)

end

/-- JSON.parse: parse one value and require at most trailing whitespace
after it. -/
def jsonParse (s : String) : Option Json :=
  match parseVal (s.length + 1) s.data with
  | some (v, rest) => if (skipWs rest).isEmpty then some v else none
  | none => none

/-- readJSON from electron/main.ts: an absent file (ENOENT) returns
null; a present file is parsed, and a parse failure is a thrown
SyntaxError, modelled as `none` wrapped in `Except.error`. -/
def readJSON (fs : FS) (filePath : String) : Except String (Option Json) :=
  match fsGet fs filePath with
  | none => Except.ok none
  | some raw =>
      match jsonParse raw with
      | some v => Except.ok (some v)
      | none => Except.error "SyntaxError"

/-- writeJSON from electron/main.ts: serialize with indent 2, stage at
the temporary path, rename into place. -/
def writeJSON (fs : FS) (filePath : String) (pid : Nat) (data : Json) : FS :=
  writeJSONRaw fs filePath pid (jsonStringify data)

/-! # Helper lemmas -/

theorem getCol_setCol_self (d : DashboardData) (c : Collection)
    (l : List EntityRec) : getCol (setCol d c l) c = some l := by
  cases c <;> rfl

theorem getCol_setCol_ne (d : DashboardData) (c c2 : Collection)
    (l : List EntityRec) (h : c2 ≠ c) :
    getCol (setCol d c l) c2 = getCol d c2 := by
  cases c <;> cases c2 <;> first
    | exact absurd rfl h
    | rfl

theorem setCol_of_getCol_eq (d : DashboardData) (c : Collection)
    (l : List EntityRec) (h : getCol d c = some l) : setCol d c l = d := by
  cases d
  cases c <;> simp_all [getCol, setCol]

theorem lookupField_setField_self (fs : List (String × String)) (k v : String) :
    lookupField (setField fs k v) k = some v := by
  induction fs with
  | nil => simp [setField, lookupField]
  | cons kv rest ih =>
      by_cases h : kv.1 = k
      · obtain ⟨k0, v0⟩ := kv
        simp_all [setField, lookupField]
      · obtain ⟨k0, v0⟩ := kv
        simp only at h
        simp [setField, lookupField, h, List.find?] at ih ⊢
        exact ih

theorem lookupField_setField_ne (fs : List (String × String)) (k v k2 : String)
    (h : k2 ≠ k) : lookupField (setField fs k v) k2 = lookupField fs k2 := by
  induction fs with
  | nil => simp [setField, lookupField, List.find?, Ne.symm h]
  | cons kv rest ih =>
      obtain ⟨k0, v0⟩ := kv
      by_cases h0 : k0 = k
      · subst h0
        simp [setField, lookupField, List.find?, Ne.symm h]
      · by_cases h2 : k0 = k2
        · subst h2
          simp [setField, lookupField, List.find?, h0]
        · simp [setField, lookupField, List.find?, h0, h2] at ih ⊢
          exact ih

theorem find?_append_or {α : Type} (p : α → Bool) (l1 l2 : List α) :
    (l1 ++ l2).find? p = ((l1.find? p).or (l2.find? p)) := by
  induction l1 with
  | nil => simp
  | cons a t ih =>
      by_cases h : p a
      · simp [List.find?, h]
      · simp [List.find?, h, ih]

theorem lookupField_mergeFields (base upd : List (String × String)) (k : String) :
    lookupField (mergeFields base upd) k =
      (lastLookup upd k).or (lookupField base k) := by
  induction upd generalizing base with
  | nil => simp [mergeFields, lastLookup]
  | cons kv rest ih =>
      obtain ⟨k1, v1⟩ := kv
      have hstep : mergeFields base ((k1, v1) :: rest) =
          mergeFields (setField base k1 v1) rest := rfl
      rw [hstep, ih]
      have hrev : lastLookup ((k1, v1) :: rest) k =
          (lastLookup rest k).or (if k1 = k then some v1 else none) := by
        simp only [lastLookup, List.reverse_cons, find?_append_or]
        cases hfind : rest.reverse.find? (fun kv => kv.1 = k) with
        | none =>
            simp [hfind, List.find?]
            by_cases h1 : k1 = k <;> simp [h1]
        | some kv => simp [hfind]
      rw [hrev]
      cases hlast : lastLookup rest k with
      | some v => simp
      | none =>
          simp only [Option.or, Option.none_or]
          by_cases h1 : k1 = k
          · subst h1
            simp [lookupField_setField_self]
          · simp [h1, lookupField_setField_ne base k1 v1 k (Ne.symm h1)]

/-! ## Whitespace and character-class lemmas -/

theorem skipWs_cons_of_not_ws (c : Char) (cs : List Char)
    (h : isWsChar c = false) : skipWs (c :: cs) = c :: cs := by
  simp [skipWs, h]

theorem skipWs_wsOnly_append (pre s : List Char) (h : wsOnly pre = true) :
    skipWs (pre ++ s) = skipWs s := by
  induction pre with
  | nil => rfl
  | cons c t ih =>
      simp only [wsOnly, List.all_cons, Bool.and_eq_true] at h
      simp only [List.cons_append, skipWs, h.1, if_true]
      exact ih h.2

theorem wsOnly_indentChars (d : Nat) : wsOnly (indentChars d) = true := by
  simp only [wsOnly, indentChars, List.all_eq_true]
  intro c hc
  rw [List.eq_of_mem_replicate hc]
  decide

theorem wsOnly_append (a b : List Char) (ha : wsOnly a = true)
    (hb : wsOnly b = true) : wsOnly (a ++ b) = true := by
  simp only [wsOnly, List.all_append, Bool.and_eq_true]
  exact ⟨ha, hb⟩

theorem isDigit_char_facts (c : Char) (h : c.isDigit = true) :
    c ≠ 'n' ∧ c ≠ 't' ∧ c ≠ 'f' ∧ c ≠ '"' ∧ c ≠ '[' ∧ c ≠ '{' ∧ c ≠ '-' ∧
      c ≠ ']' ∧ c ≠ '}' ∧ isWsChar c = false := by
  refine ⟨?_, ?_, ?_, ?_, ?_, ?_, ?_, ?_, ?_, ?_⟩ <;>
    first
    | (intro hc; rw [hc] at h; exact absurd h (by decide))
    | (cases hw : isWsChar c with
       | false => rfl
       | true =>
           exfalso
           have hw2 : c = ' ' ∨ c = '\n' ∨ c = '\t' ∨ c = '\r' := by
             simpa [isWsChar, or_assoc] using hw
           rcases hw2 with rfl | rfl | rfl | rfl <;> exact absurd h (by decide))

/-! ## Decimal digits round trip -/

theorem charDigit_digitChar : ∀ d : Nat, d < 10 → charDigit (digitChar d) = d := by
  decide

theorem digitChar_isDigit : ∀ d : Nat, d < 10 → (digitChar d).isDigit = true := by
  decide

theorem natChars_ne_nil (m : Nat) : natChars m ≠ [] := by
  rw [natChars]
  split
  · simp
  · simp

theorem natChars_all_digits (m : Nat) : ∀ c ∈ natChars m, c.isDigit = true := by
  induction m using Nat.strong_induction_on with
  | _ m ih =>
      rw [natChars]
      split
      · rename_i h
        intro c hc
        simp only [List.mem_singleton] at hc
        rw [hc]
        exact digitChar_isDigit m h
      · rename_i h
        intro c hc
        rw [List.mem_append] at hc
        rcases hc with hc | hc
        · exact ih (m / 10) (Nat.div_lt_self (by omega) (by omega)) c hc
        · simp only [List.mem_singleton] at hc
          rw [hc]
          exact digitChar_isDigit (m % 10) (Nat.mod_lt m (by omega))

theorem foldl_natChars (m : Nat) :
    (natChars m).foldl (fun a c => a * 10 + charDigit c) 0 = m := by
  induction m using Nat.strong_induction_on with
  | _ m ih =>
      rw [natChars]
      split
      · rename_i h
        simp [List.foldl, charDigit_digitChar m h]
      · rename_i h
        rw [List.foldl_append]
        rw [ih (m / 10) (Nat.div_lt_self (by omega) (by omega))]
        simp only [List.foldl]
        rw [charDigit_digitChar (m % 10) (Nat.mod_lt m (by omega))]
        omega

theorem parseDigitsAux_full (ds : List Char)
    (hds : ∀ c ∈ ds, c.isDigit = true) (acc : Nat) (rest : List Char)
    (hrest : ∀ c, rest.head? = some c → c.isDigit = false) :
    parseDigitsAux acc (ds ++ rest) =
      (ds.foldl (fun a c => a * 10 + charDigit c) acc, rest) := by
  induction ds generalizing acc with
  | nil =>
      cases rest with
      | nil => rfl
      | cons c t => simp [parseDigitsAux, hrest c rfl]
  | cons d ds ih =>
      have hd := hds d (by simp)
      simp only [List.cons_append, parseDigitsAux, hd, if_true, List.foldl]
      exact ih (fun c hc => hds c (by simp [hc])) _

theorem parseDigits_natChars (m : Nat) (rest : List Char)
    (hrest : ∀ c, rest.head? = some c → c.isDigit = false) :
    parseDigits (natChars m ++ rest) = some (m, rest) := by
  obtain ⟨c, t, hct⟩ : ∃ c t, natChars m = c :: t := by
    cases h : natChars m with
    | nil => exact absurd h (natChars_ne_nil m)
    | cons c t => exact ⟨c, t, rfl⟩
  have hc : c.isDigit = true := natChars_all_digits m c (by rw [hct]; simp)
  have ht : ∀ x ∈ t, x.isDigit = true := fun x hx =>
    natChars_all_digits m x (by rw [hct]; simp [hx])
  rw [hct, List.cons_append]
  simp only [parseDigits, hc, if_true]
  rw [parseDigitsAux_full t ht (charDigit c) rest hrest]
  have hfold : t.foldl (fun a c => a * 10 + charDigit c) (charDigit c) =
      (natChars m).foldl (fun a c => a * 10 + charDigit c) 0 := by
    rw [hct]
    simp [List.foldl]
  rw [hfold, foldl_natChars]

theorem followOkB_not_digit (rest : List Char) (h : followOkB rest = true) :
    (∀ c, rest.head? = some c → c.isDigit = false) ∧ numTail rest = false := by
  cases rest with
  | nil =>
      refine ⟨?_, rfl⟩
      intro c hc
      exact Option.noConfusion hc
  | cons c t =>
      simp only [followOkB, Bool.or_eq_true, decide_eq_true_eq] at h
      rcases h with rfl | rfl <;>
        · refine ⟨?_, by simp [numTail]⟩
          intro x hx
          simp only [List.head?_cons, Option.some.injEq] at hx
          rw [← hx]
          decide

theorem parseNum_intChars (n : Int) (rest : List Char)
    (hrest : followOkB rest = true) :
    parseNum (intChars n ++ rest) = some (n, rest) := by
  obtain ⟨hnd, hnt⟩ := followOkB_not_digit rest hrest
  have hpd := parseDigits_natChars n.natAbs rest hnd
  by_cases hneg : n < 0
  · rw [intChars, if_pos hneg, List.cons_append]
    have hval : -((n.natAbs : Int)) = n := by omega
    simp only [parseNum, hpd]
    rw [if_true, hnt]
    simp only [Bool.false_eq_true, if_false]
    rw [hval]
  · rw [intChars, if_neg hneg]
    obtain ⟨c, t, hct⟩ : ∃ c t, natChars n.natAbs = c :: t := by
      cases h : natChars n.natAbs with
      | nil => exact absurd h (natChars_ne_nil n.natAbs)
      | cons c t => exact ⟨c, t, rfl⟩
    have hc : c.isDigit = true :=
      natChars_all_digits n.natAbs c (by rw [hct]; simp)
    have hcm : c ≠ '-' := (isDigit_char_facts c hc).2.2.2.2.2.2.1
    have hval : ((n.natAbs : Int)) = n := by omega
    rw [hct, List.cons_append]
    simp only [parseNum, if_neg hcm]
    rw [← List.cons_append, ← hct, hpd]
    simp [hnt, hval]

/-! ## String literal round trip -/

theorem hexVal_hexChar : ∀ d : Nat, d < 16 → hexVal (hexChar d) = some d := by
  decide

theorem parseStrAux_escList (s : List Char) :
    ∀ (fu : Nat), s.length < fu → ∀ rest : List Char,
      parseStrAux fu (escList s ++ '"' :: rest) = some (s, rest) := by
  induction s with
  | nil =>
      intro fu hfu rest
      cases fu with
      | zero => omega
      | succ fu2 => simp [escList, parseStrAux]
  | cons c cs ih =>
      intro fu hfu rest
      cases fu with
      | zero => omega
      | succ fu2 =>
      have ih2 := ih fu2 (by simp only [List.length_cons] at hfu; omega) rest
      show parseStrAux (fu2 + 1) ((escChar c ++ escList cs) ++ '"' :: rest) =
        some (c :: cs, rest)
      rw [List.append_assoc]
      by_cases h1 : c = '"'
      · subst h1
        have he : escChar '"' = ['\\', '"'] := by decide
        rw [he]
        simp [parseStrAux, consFirst, ih2]
      by_cases h2 : c = '\\'
      · subst h2
        have he : escChar '\\' = ['\\', '\\'] := by decide
        rw [he]
        simp [parseStrAux, consFirst, ih2]
      by_cases h3 : c.toNat < 32
      · by_cases hb : c = '\x08'
        · subst hb
          have he : escChar '\x08' = ['\\', 'b'] := by decide
          rw [he]
          simp [parseStrAux, consFirst, ih2]
        by_cases hta : c = '\t'
        · subst hta
          have he : escChar '\t' = ['\\', 't'] := by decide
          rw [he]
          simp [parseStrAux, consFirst, ih2]
        by_cases hnl : c = '\n'
        · subst hnl
          have he : escChar '\n' = ['\\', 'n'] := by decide
          rw [he]
          simp [parseStrAux, consFirst, ih2]
        by_cases hf : c = '\x0c'
        · subst hf
          have he : escChar '\x0c' = ['\\', 'f'] := by decide
          rw [he]
          simp [parseStrAux, consFirst, ih2]
        by_cases hr : c = '\r'
        · subst hr
          have he : escChar '\r' = ['\\', 'r'] := by decide
          rw [he]
          simp [parseStrAux, consFirst, ih2]
        -- generic control character: \u00XX escape
        have he : escChar c =
            ['\\', 'u', '0', '0', hexChar (c.toNat / 16), hexChar (c.toNat % 16)] := by
          rw [escChar, if_neg h1, if_neg h2, if_neg hb, if_neg hta, if_neg hnl,
            if_neg hf, if_neg hr, if_pos h3]
        rw [he]
        have hhi : hexVal (hexChar (c.toNat / 16)) = some (c.toNat / 16) :=
          hexVal_hexChar (c.toNat / 16) (by omega)
        have hlo : hexVal (hexChar (c.toNat % 16)) = some (c.toNat % 16) :=
          hexVal_hexChar (c.toNat % 16) (by omega)
        have hv0 : hexVal '0' = some 0 := by decide
        have hn : ((0 * 16 + 0) * 16 + c.toNat / 16) * 16 + c.toNat % 16 =
            c.toNat := by omega
        have hvalid : (c.toNat).isValidChar := Or.inl (by omega)
        have hhex : hex4 ('0' :: '0' :: hexChar (c.toNat / 16) ::
            hexChar (c.toNat % 16) :: (escList cs ++ '"' :: rest)) =
            some (c.toNat, escList cs ++ '"' :: rest) := by
          simp only [hex4, hv0, hhi, hlo, hn]
        simp [parseStrAux, hhex, hvalid, consFirst, ih2, Char.ofNat_toNat]
      · -- ordinary character, emitted literally
        have hb : c ≠ '\x08' := fun hh => h3 (by rw [hh]; decide)
        have hta : c ≠ '\t' := fun hh => h3 (by rw [hh]; decide)
        have hnl : c ≠ '\n' := fun hh => h3 (by rw [hh]; decide)
        have hf : c ≠ '\x0c' := fun hh => h3 (by rw [hh]; decide)
        have hr : c ≠ '\r' := fun hh => h3 (by rw [hh]; decide)
        have he : escChar c = [c] := by
          rw [escChar, if_neg h1, if_neg h2, if_neg hb, if_neg hta, if_neg hnl,
            if_neg hf, if_neg hr, if_neg h3]
        rw [he]
        simp [parseStrAux, consFirst, h1, h2, h3, ih2]

theorem escList_length_ge (s : List Char) : s.length ≤ (escList s).length := by
  induction s with
  | nil => simp [escList]
  | cons c cs ih =>
      have hc : 1 ≤ (escChar c).length := by
        rw [escChar]
        repeat' split
        all_goals simp
      simp only [escList, List.length_append, List.length_cons]
      omega

theorem parseStr_escList (s rest : List Char) :
    parseStr (escList s ++ '"' :: rest) = some (s, rest) := by
  have hlen : s.length < (escList s ++ '"' :: rest).length + 1 := by
    have := escList_length_ge s
    simp only [List.length_append, List.length_cons]
    omega
  exact parseStrAux_escList s _ hlen rest

/-! ## Serialized values and parser dispatch -/

theorem needV_pos (v : Json) : 1 ≤ needV v := by
  cases v with
  | arr l => cases l <;> simp [needV]
  | obj l => cases l <;> simp [needV]
  | null => simp [needV]
  | bool b => simp [needV]
  | num n => simp [needV]
  | str s => simp [needV]

theorem serVal_head (d : Nat) (v : Json) :
    ∃ c t, serVal d v = c :: t ∧ isWsChar c = false ∧ c ≠ ']' ∧ c ≠ '}' := by
  cases v with
  | null => exact ⟨'n', ['u', 'l', 'l'], rfl, by decide, by decide, by decide⟩
  | bool b =>
      cases b with
      | false => exact ⟨'f', ['a', 'l', 's', 'e'], rfl, by decide, by decide, by decide⟩
      | true => exact ⟨'t', ['r', 'u', 'e'], rfl, by decide, by decide, by decide⟩
  | num n =>
      show ∃ c t, intChars n = c :: t ∧ _
      by_cases hneg : n < 0
      · exact ⟨'-', natChars n.natAbs, by rw [intChars, if_pos hneg],
          by decide, by decide, by decide⟩
      · rw [intChars, if_neg hneg]
        obtain ⟨c, t, hct⟩ : ∃ c t, natChars n.natAbs = c :: t := by
          cases h : natChars n.natAbs with
          | nil => exact absurd h (natChars_ne_nil n.natAbs)
          | cons c t => exact ⟨c, t, rfl⟩
        have hc : c.isDigit = true :=
          natChars_all_digits n.natAbs c (by rw [hct]; simp)
        have hf := isDigit_char_facts c hc
        exact ⟨c, t, hct, hf.2.2.2.2.2.2.2.2.2, hf.2.2.2.2.2.2.2.1,
          hf.2.2.2.2.2.2.2.2.1⟩
  | str s =>
      exact ⟨'"', escList s.data ++ ['"'], rfl, by decide, by decide, by decide⟩
  | arr l =>
      cases l with
      | nil => exact ⟨'[', [']'], rfl, by decide, by decide, by decide⟩
      | cons x xs =>
          exact ⟨'[', '\n' :: (serItems d (x :: xs) ++ '\n' :: (indentChars d ++ [']'])),
            rfl, by decide, by decide, by decide⟩
  | obj l =>
      cases l with
      | nil => exact ⟨'{', ['}'], rfl, by decide, by decide, by decide⟩
      | cons e es =>
          exact ⟨'{', '\n' :: (serEntries d (e :: es) ++ '\n' :: (indentChars d ++ ['}'])),
            rfl, by decide, by decide, by decide⟩

theorem skipWs_pre_serVal (pre : List Char) (hpre : wsOnly pre = true)
    (d : Nat) (v : Json) (rest : List Char) :
    skipWs (pre ++ (serVal d v ++ rest)) = serVal d v ++ rest := by
  rw [skipWs_wsOnly_append _ _ hpre]
  obtain ⟨c, t, hct, hws, _, _⟩ := serVal_head d v
  rw [hct, List.cons_append, skipWs_cons_of_not_ws _ _ hws]

theorem serItems_shape (d : Nat) (x : Json) (xs : List Json) :
    ∃ tail, serItems d (x :: xs) =
      indentChars (d + 1) ++ (serVal (d + 1) x ++ tail) := by
  cases xs with
  | nil => exact ⟨[], by simp [serItems]⟩
  | cons y ys =>
      exact ⟨',' :: '\n' :: serItems d (y :: ys), by simp [serItems]⟩

theorem serEntries_shape (d : Nat) (k : String) (v : Json)
    (es : List (String × Json)) :
    ∃ tail, serEntries d ((k, v) :: es) =
      indentChars (d + 1) ++ ('"' :: tail) := by
  cases es with
  | nil =>
      exact ⟨escList k.data ++ '"' :: ':' :: ' ' :: serVal (d + 1) v, rfl⟩
  | cons e2 es2 =>
      refine ⟨escList k.data ++ ('"' :: (':' :: (' ' :: (serVal (d + 1) v ++
        (',' :: ('\n' :: serEntries d (e2 :: es2))))))), ?_⟩
      simp [serEntries]

theorem skipWs_ws_cons (pre : List Char) (hpre : wsOnly pre = true)
    (c : Char) (hc : isWsChar c = false) (t : List Char) :
    skipWs (pre ++ (c :: t)) = c :: t := by
  rw [skipWs_wsOnly_append _ _ hpre, skipWs_cons_of_not_ws _ _ hc]

theorem wsOnly_newline_indent (d : Nat) :
    wsOnly ('\n' :: indentChars d) = true := by
  have := wsOnly_indentChars d
  simp only [wsOnly, List.all_cons, Bool.and_eq_true]
  exact ⟨by decide, this⟩

theorem parse_ser_main (N : Nat) :
    (∀ v : Json, sizeOf v ≤ N → ∀ fuel : Nat, needV v ≤ fuel →
      ∀ (d : Nat) (pre rest : List Char), wsOnly pre = true →
        followOkB rest = true →
        parseVal fuel (pre ++ (serVal d v ++ rest)) = some (v, rest)) ∧
    (∀ l : List Json, sizeOf l ≤ N → l ≠ [] → ∀ fuel : Nat, needI l ≤ fuel →
      ∀ (d : Nat) (pre rest : List Char), wsOnly pre = true →
        parseItems fuel
          (pre ++ (serItems d l ++ '\n' :: (indentChars d ++ (']' :: rest)))) =
          some (l, rest)) ∧
    (∀ es : List (String × Json), sizeOf es ≤ N → es ≠ [] →
      ∀ fuel : Nat, needE es ≤ fuel →
      ∀ (d : Nat) (pre rest : List Char), wsOnly pre = true →
        parseEntries fuel
          (pre ++ (serEntries d es ++ '\n' :: (indentChars d ++ ('}' :: rest)))) =
          some (es, rest)) := by
  induction N using Nat.strong_induction_on with
  | _ N ih =>
  refine ⟨?_, ?_, ?_⟩
  · -- one value
    intro v hv fuel hfuel d pre rest hpre hrest
    have hpos := needV_pos v
    cases fuel with
    | zero => omega
    | succ f =>
    simp only [parseVal]
    rw [skipWs_pre_serVal pre hpre d v rest]
    cases v with
    | null =>
        have hshape : serVal d Json.null ++ rest =
            'n' :: 'u' :: 'l' :: 'l' :: rest := rfl
        rw [hshape]
        simp
    | bool b =>
        cases b with
        | false =>
            have hshape : serVal d (Json.bool false) ++ rest =
                'f' :: 'a' :: 'l' :: 's' :: 'e' :: rest := rfl
            rw [hshape]
            simp
        | true =>
            have hshape : serVal d (Json.bool true) ++ rest =
                't' :: 'r' :: 'u' :: 'e' :: rest := rfl
            rw [hshape]
            simp
    | num n =>
        have hser : serVal d (Json.num n) = intChars n := rfl
        have hpn := parseNum_intChars n rest hrest
        by_cases hneg : n < 0
        · have hic : intChars n = '-' :: natChars n.natAbs := by
            rw [intChars, if_pos hneg]
          rw [hser, hic, List.cons_append]
          have hpn2 : parseNum ('-' :: (natChars n.natAbs ++ rest)) =
              some (n, rest) := by
            rw [hic, List.cons_append] at hpn
            exact hpn
          simp [hpn2]
        · have hic : intChars n = natChars n.natAbs := by
            rw [intChars, if_neg hneg]
          obtain ⟨c, t, hct⟩ : ∃ c t, natChars n.natAbs = c :: t := by
            cases h : natChars n.natAbs with
            | nil => exact absurd h (natChars_ne_nil n.natAbs)
            | cons c t => exact ⟨c, t, rfl⟩
          have hc : c.isDigit = true :=
            natChars_all_digits n.natAbs c (by rw [hct]; simp)
          have hf := isDigit_char_facts c hc
          have hpn2 : parseNum (c :: (t ++ rest)) = some (n, rest) := by
            rw [hic, hct, List.cons_append] at hpn
            exact hpn
          rw [hser, hic, hct, List.cons_append]
          simp [hf.1, hf.2.1, hf.2.2.1, hf.2.2.2.1, hf.2.2.2.2.1,
            hf.2.2.2.2.2.1, hc, hpn2]
    | str s =>
        have hshape : serVal d (Json.str s) ++ rest =
            '"' :: (escList s.data ++ '"' :: rest) := by
          show ('"' :: (escList s.data ++ ['"'])) ++ rest = _
          simp
        rw [hshape]
        have hps := parseStr_escList s.data rest
        have hmk : String.mk s.data = s := rfl
        simp [hps, hmk]
    | arr l =>
        cases l with
        | nil =>
            have hshape : serVal d (Json.arr []) ++ rest = '[' :: ']' :: rest := rfl
            rw [hshape]
            have hsk : skipWs (']' :: rest) = ']' :: rest :=
              skipWs_cons_of_not_ws _ _ (by decide)
            simp [hsk]
        | cons x xs =>
            have hshape : serVal d (Json.arr (x :: xs)) ++ rest =
                '[' :: ('\n' :: (serItems d (x :: xs) ++
                  '\n' :: (indentChars d ++ (']' :: rest)))) := by
              show ('[' :: '\n' :: (serItems d (x :: xs) ++
                '\n' :: (indentChars d ++ [']']))) ++ rest = _
              simp
            rw [hshape]
            -- head of the first item decides the dispatch away from "]"
            obtain ⟨tail, htail⟩ := serItems_shape d x xs
            obtain ⟨c1, t1, hct1, hws1, hne1, _⟩ := serVal_head (d + 1) x
            have hskip2 : skipWs ('\n' :: (serItems d (x :: xs) ++
                '\n' :: (indentChars d ++ (']' :: rest)))) =
                c1 :: (t1 ++ (tail ++ '\n' :: (indentChars d ++ (']' :: rest)))) := by
              rw [htail]
              have hrearr : '\n' :: ((indentChars (d + 1) ++
                  (serVal (d + 1) x ++ tail)) ++
                  '\n' :: (indentChars d ++ (']' :: rest))) =
                  ('\n' :: indentChars (d + 1)) ++ (serVal (d + 1) x ++
                    (tail ++ '\n' :: (indentChars d ++ (']' :: rest)))) := by
                simp
              rw [hrearr, skipWs_wsOnly_append _ _ (wsOnly_newline_indent (d + 1)),
                hct1, List.cons_append, skipWs_cons_of_not_ws _ _ hws1]
            have hitems : parseItems f
                (['\n'] ++ (serItems d (x :: xs) ++
                  '\n' :: (indentChars d ++ (']' :: rest)))) =
                some (x :: xs, rest) := by
              have hlt : sizeOf (x :: xs) < N := by
                have : sizeOf (Json.arr (x :: xs)) ≤ N := hv
                simp only [Json.arr.sizeOf_spec] at this
                omega
              have hfu : needI (x :: xs) ≤ f := by
                have : needV (Json.arr (x :: xs)) = 1 + needI (x :: xs) := rfl
                omega
              exact (ih (sizeOf (x :: xs)) hlt).2.1 (x :: xs) (le_refl _)
                (by simp) f hfu d ['\n'] rest (by decide)
            simp only [List.singleton_append] at hitems
            simp [hskip2, hne1, hitems]
    | obj l =>
        cases l with
        | nil =>
            have hshape : serVal d (Json.obj []) ++ rest = '{' :: '}' :: rest := rfl
            rw [hshape]
            have hsk : skipWs ('}' :: rest) = '}' :: rest :=
              skipWs_cons_of_not_ws _ _ (by decide)
            simp [hsk]
        | cons e es =>
            obtain ⟨k, v⟩ := e
            have hshape : serVal d (Json.obj ((k, v) :: es)) ++ rest =
                '{' :: ('\n' :: (serEntries d ((k, v) :: es) ++
                  '\n' :: (indentChars d ++ ('}' :: rest)))) := by
              show ('{' :: '\n' :: (serEntries d ((k, v) :: es) ++
                '\n' :: (indentChars d ++ ['}']))) ++ rest = _
              simp
            rw [hshape]
            obtain ⟨tail, htail⟩ := serEntries_shape d k v es
            have hskip2 : skipWs ('\n' :: (serEntries d ((k, v) :: es) ++
                '\n' :: (indentChars d ++ ('}' :: rest)))) =
                '"' :: (tail ++ '\n' :: (indentChars d ++ ('}' :: rest))) := by
              rw [htail]
              have hrearr : '\n' :: ((indentChars (d + 1) ++ ('"' :: tail)) ++
                  '\n' :: (indentChars d ++ ('}' :: rest))) =
                  ('\n' :: indentChars (d + 1)) ++
                    ('"' :: (tail ++ '\n' :: (indentChars d ++ ('}' :: rest)))) := by
                simp
              rw [hrearr, skipWs_wsOnly_append _ _ (wsOnly_newline_indent (d + 1)),
                skipWs_cons_of_not_ws _ _ (by decide)]
            have hentries : parseEntries f
                (['\n'] ++ (serEntries d ((k, v) :: es) ++
                  '\n' :: (indentChars d ++ ('}' :: rest)))) =
                some ((k, v) :: es, rest) := by
              have hlt : sizeOf ((k, v) :: es) < N := by
                have : sizeOf (Json.obj ((k, v) :: es)) ≤ N := hv
                simp only [Json.obj.sizeOf_spec] at this
                omega
              have hfu : needE ((k, v) :: es) ≤ f := by
                have : needV (Json.obj ((k, v) :: es)) = 1 + needE ((k, v) :: es) := rfl
                omega
              exact (ih (sizeOf ((k, v) :: es)) hlt).2.2 ((k, v) :: es) (le_refl _)
                (by simp) f hfu d ['\n'] rest (by decide)
            simp only [List.singleton_append] at hentries
            simp [hskip2, hentries]
  · -- items of a nonempty array
    intro l hl hne fuel hfuel d pre rest hpre
    cases l with
    | nil => exact absurd rfl hne
    | cons x xs =>
    have hneed : needI (x :: xs) = 1 + max (needV x) (needI xs) := rfl
    have hmax1 := Nat.le_max_left (needV x) (needI xs)
    have hmax2 := Nat.le_max_right (needV x) (needI xs)
    cases fuel with
    | zero => omega
    | succ f =>
    have hxlt : sizeOf x < N := by
      have : sizeOf (x :: xs) ≤ N := hl
      simp only [List.cons.sizeOf_spec] at this
      omega
    have hPV := (ih (sizeOf x) hxlt).1 x (le_refl _) f (by omega) (d + 1)
    cases xs with
    | nil =>
        have heq : pre ++ (serItems d [x] ++
            '\n' :: (indentChars d ++ (']' :: rest))) =
            (pre ++ indentChars (d + 1)) ++ (serVal (d + 1) x ++
              ('\n' :: (indentChars d ++ (']' :: rest)))) := by
          simp [serItems]
        have hx := hPV (pre ++ indentChars (d + 1))
          ('\n' :: (indentChars d ++ (']' :: rest)))
          (wsOnly_append _ _ hpre (wsOnly_indentChars (d + 1))) rfl
        simp only [List.append_assoc] at hx
        have hskipt : skipWs ('\n' :: (indentChars d ++ (']' :: rest))) =
            ']' :: rest := by
          have hre : ('\n' :: (indentChars d ++ (']' :: rest))) =
              ('\n' :: indentChars d) ++ (']' :: rest) := by simp
          rw [hre]
          exact skipWs_ws_cons _ (wsOnly_newline_indent d) _ (by decide) _
        rw [heq]
        simp [parseItems, hx, hskipt]
    | cons y ys =>
        have heq : pre ++ (serItems d (x :: y :: ys) ++
            '\n' :: (indentChars d ++ (']' :: rest))) =
            (pre ++ indentChars (d + 1)) ++ (serVal (d + 1) x ++
              (',' :: ('\n' :: (serItems d (y :: ys) ++
                '\n' :: (indentChars d ++ (']' :: rest)))))) := by
          simp [serItems]
        have hx := hPV (pre ++ indentChars (d + 1))
          (',' :: ('\n' :: (serItems d (y :: ys) ++
            '\n' :: (indentChars d ++ (']' :: rest)))))
          (wsOnly_append _ _ hpre (wsOnly_indentChars (d + 1))) rfl
        simp only [List.append_assoc] at hx
        have hrec : parseItems f
            ('\n' :: (serItems d (y :: ys) ++
              '\n' :: (indentChars d ++ (']' :: rest)))) =
            some (y :: ys, rest) := by
          have hlt : sizeOf (y :: ys) < N := by
            have hsz : sizeOf (x :: y :: ys) ≤ N := hl
            simp only [List.cons.sizeOf_spec] at hsz ⊢
            omega
          have := (ih (sizeOf (y :: ys)) hlt).2.1 (y :: ys) (le_refl _)
            (by simp) f (by omega) d ['\n'] rest (by decide)
          simpa using this
        have hsk : skipWs (',' :: ('\n' :: (serItems d (y :: ys) ++
            '\n' :: (indentChars d ++ (']' :: rest))))) =
            ',' :: ('\n' :: (serItems d (y :: ys) ++
              '\n' :: (indentChars d ++ (']' :: rest)))) :=
          skipWs_cons_of_not_ws _ _ (by decide)
        rw [heq]
        simp [parseItems, hx, hsk, hrec]
  · -- entries of a nonempty object
    intro es hes hne fuel hfuel d pre rest hpre
    cases es with
    | nil => exact absurd rfl hne
    | cons e es2 =>
    obtain ⟨k, v⟩ := e
    have hneed : needE ((k, v) :: es2) = 1 + max (needV v) (needE es2) := rfl
    have hmax1 := Nat.le_max_left (needV v) (needE es2)
    have hmax2 := Nat.le_max_right (needV v) (needE es2)
    cases fuel with
    | zero => omega
    | succ f =>
    have hvlt : sizeOf v < N := by
      have : sizeOf ((k, v) :: es2) ≤ N := hes
      simp only [List.cons.sizeOf_spec, Prod.mk.sizeOf_spec] at this
      omega
    have hPV := (ih (sizeOf v) hvlt).1 v (le_refl _) f (by omega) (d + 1)
    cases es2 with
    | nil =>
        have heq : pre ++ (serEntries d [(k, v)] ++
            '\n' :: (indentChars d ++ ('}' :: rest))) =
            (pre ++ indentChars (d + 1)) ++
              ('"' :: (escList k.data ++
                ('"' :: (':' :: (' ' :: (serVal (d + 1) v ++
                  ('\n' :: (indentChars d ++ ('}' :: rest))))))))) := by
          simp [serEntries]
        have hskipin : skipWs (pre ++ (serEntries d [(k, v)] ++
            '\n' :: (indentChars d ++ ('}' :: rest)))) =
            '"' :: (escList k.data ++
              ('"' :: (':' :: (' ' :: (serVal (d + 1) v ++
                ('\n' :: (indentChars d ++ ('}' :: rest)))))))) := by
          rw [heq]
          exact skipWs_ws_cons _
            (wsOnly_append _ _ hpre (wsOnly_indentChars (d + 1))) _ (by decide) _
        have hkey := parseStr_escList k.data
          (':' :: (' ' :: (serVal (d + 1) v ++
            ('\n' :: (indentChars d ++ ('}' :: rest))))))
        have hx := hPV [' ']
          ('\n' :: (indentChars d ++ ('}' :: rest))) (by decide) rfl
        have hvx : parseVal f (' ' :: (serVal (d + 1) v ++
            ('\n' :: (indentChars d ++ ('}' :: rest))))) =
            some (v, '\n' :: (indentChars d ++ ('}' :: rest))) := by
          simpa using hx
        have hskipt : skipWs ('\n' :: (indentChars d ++ ('}' :: rest))) =
            '}' :: rest := by
          have hre : ('\n' :: (indentChars d ++ ('}' :: rest))) =
              ('\n' :: indentChars d) ++ ('}' :: rest) := by simp
          rw [hre]
          exact skipWs_ws_cons _ (wsOnly_newline_indent d) _ (by decide) _
        have hskc : skipWs (':' :: (' ' :: (serVal (d + 1) v ++
            ('\n' :: (indentChars d ++ ('}' :: rest)))))) =
            ':' :: (' ' :: (serVal (d + 1) v ++
              ('\n' :: (indentChars d ++ ('}' :: rest))))) :=
          skipWs_cons_of_not_ws _ _ (by decide)
        have hmk : String.mk k.data = k := rfl
        simp [parseEntries, hskipin, hkey, hskc, hvx, hskipt, hmk]
    | cons e2 es3 =>
        have heq : pre ++ (serEntries d ((k, v) :: e2 :: es3) ++
            '\n' :: (indentChars d ++ ('}' :: rest))) =
            (pre ++ indentChars (d + 1)) ++
              ('"' :: (escList k.data ++
                ('"' :: (':' :: (' ' :: (serVal (d + 1) v ++
                  (',' :: ('\n' :: (serEntries d (e2 :: es3) ++
                    '\n' :: (indentChars d ++ ('}' :: rest))))))))))) := by
          simp [serEntries]
        have hskipin : skipWs (pre ++ (serEntries d ((k, v) :: e2 :: es3) ++
            '\n' :: (indentChars d ++ ('}' :: rest)))) =
            '"' :: (escList k.data ++
              ('"' :: (':' :: (' ' :: (serVal (d + 1) v ++
                (',' :: ('\n' :: (serEntries d (e2 :: es3) ++
                  '\n' :: (indentChars d ++ ('}' :: rest)))))))))) := by
          rw [heq]
          exact skipWs_ws_cons _
            (wsOnly_append _ _ hpre (wsOnly_indentChars (d + 1))) _ (by decide) _
        have hkey := parseStr_escList k.data
          (':' :: (' ' :: (serVal (d + 1) v ++
            (',' :: ('\n' :: (serEntries d (e2 :: es3) ++
              '\n' :: (indentChars d ++ ('}' :: rest))))))))
        have hx := hPV [' ']
          (',' :: ('\n' :: (serEntries d (e2 :: es3) ++
            '\n' :: (indentChars d ++ ('}' :: rest))))) (by decide) rfl
        have hvx : parseVal f (' ' :: (serVal (d + 1) v ++
            (',' :: ('\n' :: (serEntries d (e2 :: es3) ++
              '\n' :: (indentChars d ++ ('}' :: rest))))))) =
            some (v, ',' :: ('\n' :: (serEntries d (e2 :: es3) ++
              '\n' :: (indentChars d ++ ('}' :: rest))))) := by
          simpa using hx
        have hrec : parseEntries f
            ('\n' :: (serEntries d (e2 :: es3) ++
              '\n' :: (indentChars d ++ ('}' :: rest)))) =
            some (e2 :: es3, rest) := by
          have hlt : sizeOf (e2 :: es3) < N := by
            have hsz : sizeOf ((k, v) :: e2 :: es3) ≤ N := hes
            simp only [List.cons.sizeOf_spec] at hsz ⊢
            omega
          have := (ih (sizeOf (e2 :: es3)) hlt).2.2 (e2 :: es3) (le_refl _)
            (by simp) f (by omega) d ['\n'] rest (by decide)
          simpa using this
        have hskc : skipWs (':' :: (' ' :: (serVal (d + 1) v ++
            (',' :: ('\n' :: (serEntries d (e2 :: es3) ++
              '\n' :: (indentChars d ++ ('}' :: rest)))))))) =
            ':' :: (' ' :: (serVal (d + 1) v ++
              (',' :: ('\n' :: (serEntries d (e2 :: es3) ++
                '\n' :: (indentChars d ++ ('}' :: rest))))))) :=
          skipWs_cons_of_not_ws _ _ (by decide)
        have hskc2 : skipWs (',' :: ('\n' :: (serEntries d (e2 :: es3) ++
            '\n' :: (indentChars d ++ ('}' :: rest))))) =
            ',' :: ('\n' :: (serEntries d (e2 :: es3) ++
              '\n' :: (indentChars d ++ ('}' :: rest)))) :=
          skipWs_cons_of_not_ws _ _ (by decide)
        have hmk : String.mk k.data = k := rfl
        simp [parseEntries, hskipin, hkey, hskc, hvx, hskc2, hrec, hmk]

theorem need_le_len (N : Nat) :
    (∀ v : Json, sizeOf v ≤ N → ∀ d : Nat, needV v ≤ (serVal d v).length) ∧
    (∀ l : List Json, sizeOf l ≤ N → l ≠ [] → ∀ d : Nat,
      needI l ≤ (serItems d l).length) ∧
    (∀ es : List (String × Json), sizeOf es ≤ N → es ≠ [] → ∀ d : Nat,
      needE es ≤ (serEntries d es).length) := by
  induction N using Nat.strong_induction_on with
  | _ N ih =>
  refine ⟨?_, ?_, ?_⟩
  · intro v hv d
    cases v with
    | null => simp [needV, serVal]
    | bool b => cases b <;> simp [needV, serVal]
    | num n =>
        show needV (Json.num n) ≤ (intChars n).length
        have h1 : needV (Json.num n) = 1 := rfl
        rw [h1]
        by_cases hneg : n < 0
        · rw [intChars, if_pos hneg]
          simp
        · rw [intChars, if_neg hneg]
          have hp : 0 < (natChars n.natAbs).length :=
            List.length_pos.mpr (natChars_ne_nil n.natAbs)
          omega
    | str s =>
        show needV (Json.str s) ≤ ('"' :: (escList s.data ++ ['"'])).length
        have h1 : needV (Json.str s) = 1 := rfl
        rw [h1]
        simp only [List.length_cons]
        omega
    | arr l =>
        cases l with
        | nil => simp [needV, serVal]
        | cons x xs =>
            have hlt : sizeOf (x :: xs) < N := by
              have hsz : sizeOf (Json.arr (x :: xs)) ≤ N := hv
              simp only [Json.arr.sizeOf_spec] at hsz
              omega
            have hi := (ih (sizeOf (x :: xs)) hlt).2.1 (x :: xs) (le_refl _)
              (by simp) d
            have h1 : needV (Json.arr (x :: xs)) = 1 + needI (x :: xs) := rfl
            rw [h1]
            show _ ≤ ('[' :: '\n' :: (serItems d (x :: xs) ++
              '\n' :: (indentChars d ++ [']']))).length
            simp only [List.length_cons, List.length_append, indentChars,
              List.length_replicate]
            omega
    | obj l =>
        cases l with
        | nil => simp [needV, serVal]
        | cons e es =>
            obtain ⟨k, v2⟩ := e
            have hlt : sizeOf ((k, v2) :: es) < N := by
              have hsz : sizeOf (Json.obj ((k, v2) :: es)) ≤ N := hv
              simp only [Json.obj.sizeOf_spec] at hsz
              omega
            have hi := (ih (sizeOf ((k, v2) :: es)) hlt).2.2 ((k, v2) :: es)
              (le_refl _) (by simp) d
            have h1 : needV (Json.obj ((k, v2) :: es)) =
                1 + needE ((k, v2) :: es) := rfl
            rw [h1]
            show _ ≤ ('{' :: '\n' :: (serEntries d ((k, v2) :: es) ++
              '\n' :: (indentChars d ++ ['}']))).length
            simp only [List.length_cons, List.length_append, indentChars,
              List.length_replicate]
            omega
  · intro l hl hne d
    cases l with
    | nil => exact absurd rfl hne
    | cons x xs =>
    have hxlt : sizeOf x < N := by
      have hsz : sizeOf (x :: xs) ≤ N := hl
      simp only [List.cons.sizeOf_spec] at hsz
      omega
    have hx := (ih (sizeOf x) hxlt).1 x (le_refl _) (d + 1)
    cases xs with
    | nil =>
        have h1 : needI [x] = 1 + max (needV x) (needI []) := rfl
        have h0 : needI ([] : List Json) = 0 := rfl
        rw [h1, h0]
        show _ ≤ (indentChars (d + 1) ++ serVal (d + 1) x).length
        simp only [List.length_append, indentChars, List.length_replicate]
        omega
    | cons y ys =>
        have hylt : sizeOf (y :: ys) < N := by
          have hsz : sizeOf (x :: y :: ys) ≤ N := hl
          simp only [List.cons.sizeOf_spec] at hsz ⊢
          omega
        have hy := (ih (sizeOf (y :: ys)) hylt).2.1 (y :: ys) (le_refl _)
          (by simp) d
        have h1 : needI (x :: y :: ys) = 1 + max (needV x) (needI (y :: ys)) := rfl
        rw [h1]
        show _ ≤ (indentChars (d + 1) ++ (serVal (d + 1) x ++
          ',' :: '\n' :: serItems d (y :: ys))).length
        simp only [List.length_append, List.length_cons, indentChars,
          List.length_replicate]
        omega
  · intro es hes hne d
    cases es with
    | nil => exact absurd rfl hne
    | cons e es2 =>
    obtain ⟨k, v⟩ := e
    have hvlt : sizeOf v < N := by
      have hsz : sizeOf ((k, v) :: es2) ≤ N := hes
      simp only [List.cons.sizeOf_spec, Prod.mk.sizeOf_spec] at hsz
      omega
    have hx := (ih (sizeOf v) hvlt).1 v (le_refl _) (d + 1)
    cases es2 with
    | nil =>
        have h1 : needE [(k, v)] = 1 + max (needV v) (needE []) := rfl
        have h0 : needE ([] : List (String × Json)) = 0 := rfl
        rw [h1, h0]
        show _ ≤ (indentChars (d + 1) ++
          ('"' :: (escList k.data ++ '"' :: ':' :: ' ' ::
            serVal (d + 1) v))).length
        simp only [List.length_append, List.length_cons, indentChars,
          List.length_replicate]
        omega
    | cons e2 es3 =>
        have hylt : sizeOf (e2 :: es3) < N := by
          have hsz : sizeOf ((k, v) :: e2 :: es3) ≤ N := hes
          simp only [List.cons.sizeOf_spec] at hsz ⊢
          omega
        have hy := (ih (sizeOf (e2 :: es3)) hylt).2.2 (e2 :: es3) (le_refl _)
          (by simp) d
        have h1 : needE ((k, v) :: e2 :: es3) =
            1 + max (needV v) (needE (e2 :: es3)) := rfl
        rw [h1]
        simp only [serEntries, List.length_append, List.length_cons,
          indentChars, List.length_replicate]
        omega

theorem jsonParse_jsonStringify (v : Json) :
    jsonParse (jsonStringify v) = some v := by
  have hlen0 : needV v ≤ (serVal 0 v).length :=
    (need_le_len (sizeOf v)).1 v (le_refl _) 0
  have hslen : (jsonStringify v).length = (serVal 0 v).length := rfl
  have hmain := (parse_ser_main (sizeOf v)).1 v (le_refl _)
    ((jsonStringify v).length + 1) (by omega) 0 [] [] rfl rfl
  simp only [List.nil_append, List.append_nil] at hmain
  have hdata : (jsonStringify v).data = serVal 0 v := rfl
  simp only [jsonParse, hdata, hmain]
  simp [skipWs]

theorem fsGet_writeJSONRaw (fs : FS) (p : String) (pid : Nat)
    (payload : String) :
    fsGet (writeJSONRaw fs p pid payload) p = some payload := by
  have hstaged : fsGet (fsSet fs (tempPath p pid) payload) (tempPath p pid) =
      some payload := by
    simp [fsGet, fsSet, List.find?]
  simp only [writeJSONRaw, fsRename, hstaged]
  simp [fsGet, fsSet, List.find?]

/-! # Claim theorems -/

/-- Claim C9: backend round trip. For every JSON document D (numbers
restricted to integers: floating point is outside the model) and every
storage key, writeJSON through the bridged file backend (serialize with
indent 2, stage at the temp path, rename into place) followed by
readJSON of the same key returns a document equal to D. -/
theorem c9_backend_round_trip (fs : FS) (userData key : String) (pid : Nat)
    (d : Json) :
    readJSON (writeJSON fs (getStoragePath userData key) pid d)
      (getStoragePath userData key) = Except.ok (some d) := by
  have h1 := fsGet_writeJSONRaw fs (getStoragePath userData key) pid
    (jsonStringify d)
  have h2 := jsonParse_jsonStringify d
  simp [readJSON, writeJSON, h1, h2]



/-- Helper induction over the tail of a burst: starting with a freshly
armed timer, every further call arriving before the pending deadline
cancels and re-arms without emitting a write, leaving the last document
pending. -/
theorem schedRun_burst {T : Type} (cs : List (T × Nat)) :
    ∀ (d : T) (t : Nat), burstOk ((d, t) :: cs) = true →
      ∃ last : T × Nat, ((d, t) :: cs).getLast? = some last ∧
        schedRun (some (d, t + debounceDelay)) cs =
          (some (last.1, last.2 + debounceDelay), []) := by
  induction cs with
  | nil => exact fun d t _ => ⟨(d, t), rfl, rfl⟩
  | cons c2 cs ih =>
      intro d t h
      obtain ⟨d2, t2⟩ := c2
      simp only [burstOk, Bool.and_eq_true, decide_eq_true_eq] at h
      obtain ⟨⟨h1, h2⟩, h3⟩ := h
      obtain ⟨last, hl, hrun⟩ := ih d2 t2 h3
      refine ⟨last, by rw [List.getLast?_cons_cons]; exact hl, ?_⟩
      have hstep : schedStep (some (d, t + debounceDelay)) (d2, t2) =
          (some (d2, t2 + debounceDelay), []) := by
        simp only [schedStep]
        rw [if_neg (by omega)]
      simp only [schedRun, hstep, hrun, List.nil_append]

/-- Claim C1: for every burst of persist calls with consecutive gaps
below the debounce delay, the complete run (burst followed by the timer
firing at quiescence) performs exactly one physical write, and it
carries the document of the last call of the burst. -/
theorem c1_debounce_coalescing {T : Type} (d : T) (t : Nat)
    (cs : List (T × Nat)) (h : burstOk ((d, t) :: cs) = true) :
    ∃ last : T × Nat, ((d, t) :: cs).getLast? = some last ∧
      (schedRun none ((d, t) :: cs)).2 = [] ∧
      schedFlush (schedRun none ((d, t) :: cs)).1 = [last.1] := by
  obtain ⟨last, hl, hrun⟩ := schedRun_burst cs d t h
  have hfirst : schedStep (none : SchedState T) (d, t) =
      (some (d, t + debounceDelay), []) := rfl
  refine ⟨last, hl, ?_, ?_⟩
  · simp only [schedRun, hfirst, hrun, List.nil_append]
  · simp only [schedRun, hfirst, hrun, schedFlush]

/-- Claim C1 witness: a concrete burst of three persist calls at times
0, 50, 120 (each gap below 100) writes exactly once, with the third
document. -/
theorem c1_debounce_coalescing_witness :
    ∃ last : String × Nat,
      ([("D1", 0), ("D2", 50), ("D3", 120)] : List (String × Nat)).getLast? =
        some last ∧
      (schedRun none [("D1", 0), ("D2", 50), ("D3", 120)]).2 = [] ∧
      schedFlush (schedRun none [("D1", 0), ("D2", 50), ("D3", 120)]).1 =
        [last.1] :=
  c1_debounce_coalescing "D1" 0 [("D2", 50), ("D3", 120)] (by decide)

/-- Claim C2: write atomicity of the bridged file backend. The staging
path is the destination path suffixed with ".tmp." and the process id,
and differs from the destination; a read of the destination issued while
the temporary file holds any partial content, or after the full payload
is staged but before the rename, still returns exactly the previously
committed state (value or absent); after the final rename the
destination holds the full new payload. -/
theorem c2_atomic_write (fs : FS) (filePath : String) (pid : Nat)
    (payload frag : String) :
    tempPath filePath pid = filePath ++ ".tmp." ++ toString pid ∧
    tempPath filePath pid ≠ filePath ∧
    fsGet (fsSet fs (tempPath filePath pid) frag) filePath = fsGet fs filePath ∧
    fsGet (fsSet fs (tempPath filePath pid) payload) filePath = fsGet fs filePath ∧
    fsGet (writeJSONRaw fs filePath pid payload) filePath = some payload := by
  have h5 : (".tmp." : String).length = 5 := by decide
  have hlen : (tempPath filePath pid).length =
      filePath.length + 5 + (toString pid).length := by
    simp [tempPath, String.length_append, h5]
  have hne : tempPath filePath pid ≠ filePath := by
    intro hcontra
    have := congrArg String.length hcontra
    omega
  have hget : ∀ c : String,
      fsGet (fsSet fs (tempPath filePath pid) c) filePath = fsGet fs filePath := by
    intro c
    simp [fsGet, fsSet, List.find?, hne]
  refine ⟨rfl, hne, hget frag, hget payload, ?_⟩
  have hstaged : fsGet (fsSet fs (tempPath filePath pid) payload)
      (tempPath filePath pid) = some payload := by
    simp [fsGet, fsSet, List.find?]
  simp only [writeJSONRaw, fsRename, hstaged]
  simp [fsGet, fsSet, List.find?]

/-- Claim C3: evaluation at the failing input. For a stored document
that predates the `todos` collection, `safeData` does report the empty
list for `todos` (the first half of the claim holds), but `addItem` on
`todos` reads the raw previous document, whose `todos` key is absent at
run time, and the spread of that `undefined` value throws — no widened
document is ever handed to the setter. -/
theorem c3_todos_add_on_legacy_doc :
    (safeData legacyDoc).todos = some [] ∧
    (safeData legacyDoc).linkedFolders = some [] ∧
    getCol legacyDoc Collection.todos = none ∧
    addItem Collection.todos "id1" "2026-01-01T00:00:00.000Z"
      ⟨none, [("text", "a")]⟩ legacyDoc = none ∧
    updateItem Collection.todos "id1" ⟨none, none, none, []⟩ legacyDoc = none ∧
    deleteItem Collection.todos "id1" legacyDoc = none :=
  ⟨rfl, rfl, rfl, rfl, rfl, rfl⟩

/-- Claim C4: hydration ordering and permanence. At mount the hydration
flag is false and the exposed value is the supplied default; the load
effect is a total function (read errors are caught, not raised) that
always ends with the flag true; an absent or failed read leaves the
default in memory; and no later event (further loads or setValue calls)
ever returns the flag to false. -/
theorem c4_hydration (T : Type) (dflt : T) :
    (initialStoreState dflt).isHydrated = false ∧
    (initialStoreState dflt).storedValue = dflt ∧
    (∀ (s : StoreState T) (r : ReadOutcome T),
      (applyLoad s r).isHydrated = true) ∧
    (∀ msg : String,
      applyLoad (initialStoreState dflt) ReadOutcome.absent = ⟨dflt, true⟩ ∧
      applyLoad (initialStoreState dflt) (ReadOutcome.failure msg) = ⟨dflt, true⟩) ∧
    (∀ (s : StoreState T) (evts : List (StoreEvt T)),
      s.isHydrated = true → (evts.foldl storeStep s).isHydrated = true) := by
  refine ⟨rfl, rfl, fun s r => ?_, fun msg => ⟨rfl, rfl⟩, fun s evts => ?_⟩
  · cases r <;> rfl
  · induction evts generalizing s with
    | nil => exact fun h => h
    | cons e rest ih =>
        intro h
        refine ih (storeStep s e) ?_
        cases e with
        | load r => cases r <;> rfl
        | set f => exact h

/-- Claim C4 witness: concrete instance over String state. -/
theorem c4_hydration_witness :
    (initialStoreState "dflt").isHydrated = false ∧
    (([StoreEvt.load (ReadOutcome.failure "EACCES"),
       StoreEvt.set (fun _ => "x")]).foldl storeStep
      ⟨"dflt", true⟩).isHydrated = true :=
  ⟨(c4_hydration String "dflt").1,
   (c4_hydration String "dflt").2.2.2.2 ⟨"dflt", true⟩
     [StoreEvt.load (ReadOutcome.failure "EACCES"),
      StoreEvt.set (fun _ => "x")] rfl⟩

/-- Claim C5: add postcondition. When the target collection is present,
`addItem` appends exactly one record to its end, built from the given
fields plus the fresh id and a `createdAt` equal to the clock reading;
the new id is non-empty and, when fresh, keeps the id list duplicate
free; and `papers.add` additionally stamps `updatedAt` with the same
clock reading as `createdAt`. -/
theorem c5_add_postcondition (c : Collection) (prev : DashboardData)
    (l : List EntityRec) (hc : getCol prev c = some l)
    (freshId now : String) (item : AddInput)
    (hfresh : freshId ≠ "" ∧ freshId ∉ l.map EntityRec.id) :
    ∃ d2, addItem c freshId now item prev = some d2 ∧
      getCol d2 c = some (l ++ [newRecord freshId now item]) ∧
      (newRecord freshId now item).id ≠ "" ∧
      (newRecord freshId now item).createdAt = now ∧
      (newRecord freshId now item).fields = item.fields ∧
      ((l.map EntityRec.id).Nodup →
        ((l ++ [newRecord freshId now item]).map EntityRec.id).Nodup) ∧
      (∀ (prev2 : DashboardData) (flds : List (String × String)),
        papersAdd freshId now flds prev2 =
          some { prev2 with papers :=
            prev2.papers ++ [newRecord freshId now ⟨some now, flds⟩] } ∧
        (newRecord freshId now ⟨some now, flds⟩).updatedAt =
          some (newRecord freshId now ⟨some now, flds⟩).createdAt) := by
  refine ⟨setCol prev c (l ++ [newRecord freshId now item]),
    ?_, getCol_setCol_self prev c _, hfresh.1, rfl, rfl, ?_, ?_⟩
  · simp [addItem, hc]
  · intro hnodup
    have hmap : (l ++ [newRecord freshId now item]).map EntityRec.id =
        (l.map EntityRec.id) ++ [freshId] := by simp [newRecord]
    rw [hmap]
    refine List.Nodup.append hnodup (List.nodup_singleton freshId) ?_
    intro x hx hx2
    simp only [List.mem_singleton] at hx2
    exact hfresh.2 (hx2 ▸ hx)
  · intro prev2 flds
    exact ⟨rfl, rfl⟩

/-- Claim C5 witness: adding to the empty papers collection of the
default document. -/
theorem c5_add_postcondition_witness :
    ∃ d2, addItem Collection.papers "uuid-1" "2026-01-01T00:00:00.000Z"
        ⟨some "2026-01-01T00:00:00.000Z", [("title", "X")]⟩ DEFAULT_DATA =
        some d2 ∧
      getCol d2 Collection.papers = some ([] ++
        [newRecord "uuid-1" "2026-01-01T00:00:00.000Z"
          ⟨some "2026-01-01T00:00:00.000Z", [("title", "X")]⟩]) := by
  obtain ⟨d2, h1, h2, _⟩ := c5_add_postcondition Collection.papers DEFAULT_DATA []
    rfl "uuid-1" "2026-01-01T00:00:00.000Z"
    ⟨some "2026-01-01T00:00:00.000Z", [("title", "X")]⟩ (by decide)
  exact ⟨d2, h1, h2⟩

/-- Claim C6: update frame and timestamp immutability. When the target
collection is present, `updateItem` replaces it by a map that merges the
patch into the record whose id matches and leaves every other record
unchanged; the merge keeps any component the patch does not supply — in
particular `id` and `createdAt` when the patch omits them — fields
supplied by the patch take their last supplied value and unsupplied
plain fields are untouched; and `papers.update` forces `updatedAt` to
the clock reading of the call. -/
theorem c6_update_frame (c : Collection) (prev : DashboardData)
    (l : List EntityRec) (hc : getCol prev c = some l)
    (id : String) (p : RecPatch) :
    ∃ d2, updateItem c id p prev = some d2 ∧
      getCol d2 c = some (l.map fun r => if r.id = id then mergeRec r p else r) ∧
      (∀ r : EntityRec, r.id ≠ id →
        (if r.id = id then mergeRec r p else r) = r) ∧
      (∀ r : EntityRec,
        (p.id = none → (mergeRec r p).id = r.id) ∧
        (p.createdAt = none → (mergeRec r p).createdAt = r.createdAt) ∧
        (p.updatedAt = none → (mergeRec r p).updatedAt = r.updatedAt) ∧
        (∀ k, lastLookup p.fields k = none →
          lookupField (mergeRec r p).fields k = lookupField r.fields k) ∧
        (∀ k v, lastLookup p.fields k = some v →
          lookupField (mergeRec r p).fields k = some v)) ∧
      (∀ (prev2 : DashboardData) (id2 now2 : String) (p2 : RecPatch),
        papersUpdate id2 now2 p2 prev2 =
          some { prev2 with papers := prev2.papers.map fun r =>
            if r.id = id2 then mergeRec r { p2 with updatedAt := some now2 }
            else r } ∧
        (∀ r : EntityRec,
          (mergeRec r { p2 with updatedAt := some now2 }).updatedAt =
            some now2)) := by
  refine ⟨setCol prev c (l.map fun r => if r.id = id then mergeRec r p else r),
    ?_, getCol_setCol_self prev c _, ?_, ?_, ?_⟩
  · simp [updateItem, hc]
  · intro r hr
    exact if_neg hr
  · intro r
    refine ⟨?_, ?_, ?_, ?_, ?_⟩
    · intro h; simp [mergeRec, h]
    · intro h; simp [mergeRec, h]
    · intro h; simp [mergeRec, h]
    · intro k h
      have := lookupField_mergeFields r.fields p.fields k
      simp [mergeRec, this, h]
    · intro k v h
      have := lookupField_mergeFields r.fields p.fields k
      simp [mergeRec, this, h]
  · intro prev2 id2 now2 p2
    exact ⟨rfl, fun r => rfl⟩

/-- Claim C6 witness: updating the title of a one-record papers
collection preserves id and createdAt. -/
theorem c6_update_frame_witness :
    ∃ d2, updateItem Collection.papers "uuid-1"
        ⟨none, none, none, [("title", "Y")]⟩ docWithPaper = some d2 ∧
      (∀ r : EntityRec,
        (mergeRec r (⟨none, none, none, [("title", "Y")]⟩ : RecPatch)).id =
          r.id) := by
  obtain ⟨d2, h1, _h2, _h3, h4, _h5⟩ := c6_update_frame Collection.papers
    docWithPaper [samplePaper] rfl "uuid-1" ⟨none, none, none, [("title", "Y")]⟩
  exact ⟨d2, h1, fun r => (h4 r).1 rfl⟩

/-- Claim C7: unknown-id no-op. When no record of the (present) target
collection carries the given id, `updateItem` and `deleteItem` both
return the previous document unchanged (and in particular do not throw
and create no record). -/
theorem c7_unknown_id_noop (c : Collection) (prev : DashboardData)
    (l : List EntityRec) (hc : getCol prev c = some l)
    (id : String) (p : RecPatch)
    (hnone : ∀ r ∈ l, r.id ≠ id) :
    updateItem c id p prev = some prev ∧
    deleteItem c id prev = some prev := by
  constructor
  · have hmap : (l.map fun r => if r.id = id then mergeRec r p else r) = l := by
      have : (l.map fun r => if r.id = id then mergeRec r p else r) =
          l.map (fun r => r) := by
        apply List.map_congr_left
        intro r hr
        exact if_neg (hnone r hr)
      rw [this, List.map_id']
    simp [updateItem, hc, hmap, setCol_of_getCol_eq prev c l hc]
  · have hfil : (l.filter fun r => r.id != id) = l := by
      apply List.filter_eq_self.2
      intro r hr
      simpa using hnone r hr
    simp [deleteItem, hc, hfil, setCol_of_getCol_eq prev c l hc]

/-- Claim C7 witness: update and delete with an id absent from a
one-record collection leave the document untouched. -/
theorem c7_unknown_id_noop_witness :
    updateItem Collection.todos "missing" ⟨none, none, none, []⟩ docWithTodo =
      some docWithTodo ∧
    deleteItem Collection.todos "missing" docWithTodo = some docWithTodo :=
  c7_unknown_id_noop Collection.todos docWithTodo [sampleTodo] rfl
    "missing" ⟨none, none, none, []⟩ (by decide)

/-- Claim C8 counterexample: the scheduled file-backend write failure is
not logged. The timer callback ignores the promise returned by
`storage.write` and installs no handler, so a failed write produces no
log entry — negating, at a concrete failing write, the part of the
claim stating that the failure is logged as a warning. -/
theorem c8_counterexample :
    ¬ ((electronWriteSettled
        (⟨DEFAULT_DATA, true⟩ : StoreState DashboardData)
        (WriteResult.failed "ENOSPC: no space left on device")).2 ≠ []) := by
  simp [electronWriteSettled]

/-- Claim C8 amended: when a scheduled physical write fails, no
exception propagates to the caller and the in-memory state is retained
unchanged (not rolled back); however, on the file backend the failure is
not logged at all (the rejected promise is ignored) — only the browser
backend logs its synchronous write failures as a console warning. -/
theorem c8_amended_failed_write (T : Type) :
    (∀ (s : StoreState T) (res : WriteResult),
      electronWriteSettled s res = (s, [])) ∧
    (∀ (key : String) (s : StoreState T) (msg : String),
      browserWriteSettled key s (WriteResult.failed msg) =
        (s, [browserWriteWarn key msg])) :=
  ⟨fun _ _ => rfl, fun _ _ _ => rfl⟩

/-- Claim C10: cross-collection frame. Every successful add, update or
delete on one collection leaves the content of every other collection
exactly as it was, and the resulting document is a single full-document
replacement (one setter call with one `setCol` image). -/
theorem c10_cross_collection_frame (c c2 : Collection) (hne : c2 ≠ c)
    (prev d2 : DashboardData) :
    (∀ (freshId now : String) (item : AddInput),
      addItem c freshId now item prev = some d2 →
        getCol d2 c2 = getCol prev c2 ∧ ∃ l2, d2 = setCol prev c l2) ∧
    (∀ (id : String) (p : RecPatch),
      updateItem c id p prev = some d2 →
        getCol d2 c2 = getCol prev c2 ∧ ∃ l2, d2 = setCol prev c l2) ∧
    (∀ id : String,
      deleteItem c id prev = some d2 →
        getCol d2 c2 = getCol prev c2 ∧ ∃ l2, d2 = setCol prev c l2) := by
  refine ⟨?_, ?_, ?_⟩
  · intro freshId now item h
    cases hcol : getCol prev c with
    | none => simp [addItem, hcol] at h
    | some l =>
        simp only [addItem, hcol] at h
        obtain rfl := Option.some.inj h
        exact ⟨getCol_setCol_ne prev c c2 _ hne, _, rfl⟩
  · intro id p h
    cases hcol : getCol prev c with
    | none => simp [updateItem, hcol] at h
    | some l =>
        simp only [updateItem, hcol] at h
        obtain rfl := Option.some.inj h
        exact ⟨getCol_setCol_ne prev c c2 _ hne, _, rfl⟩
  · intro id h
    cases hcol : getCol prev c with
    | none => simp [deleteItem, hcol] at h
    | some l =>
        simp only [deleteItem, hcol] at h
        obtain rfl := Option.some.inj h
        exact ⟨getCol_setCol_ne prev c c2 _ hne, _, rfl⟩

/-- Claim C10 witness: adding a paper to the default document leaves the
todos collection untouched. -/
theorem c10_cross_collection_frame_witness :
    ∃ d2, addItem Collection.papers "uuid-1" "T0" ⟨none, []⟩ DEFAULT_DATA =
        some d2 ∧
      getCol d2 Collection.todos = getCol DEFAULT_DATA Collection.todos := by
  have h : addItem Collection.papers "uuid-1" "T0" ⟨none, []⟩ DEFAULT_DATA =
      some (setCol DEFAULT_DATA Collection.papers
        ([] ++ [newRecord "uuid-1" "T0" ⟨none, []⟩])) := rfl
  exact ⟨_, h,
    ((c10_cross_collection_frame Collection.papers Collection.todos (by decide)
      DEFAULT_DATA _).1 "uuid-1" "T0" ⟨none, []⟩ h).1⟩

end AcademicDashboard
